import Mathlib

/-!
# Shallow embedding of the `ls -lpa` output parser (`src/lib.rs`)

Strings are modelled as `List Char` (Rust strings are valid UTF-8, so a
string is exactly its sequence of Unicode scalar values).  Places where the
Rust code measures or inspects *bytes* (`str::len`, `str::as_bytes`) are
modelled through `utf8Len` and the fact that an ASCII byte at the start or
end of a UTF-8 string coincides with an ASCII character there.
-/

/-- The helper turning a Lean string literal into the `List Char` model. -/
def str (s : String) : List Char := s.data

/-- Characters with the Unicode `White_Space` property: the set used by
Rust's `char::is_whitespace`, hence by `str::trim` and
`str::split_whitespace`. -/
def isWS (c : Char) : Bool :=
  c = ' ' || c = '\t' || c = '\n' || c = '\x0b' || c = '\x0c' || c = '\r' ||
  c = '\u0085' || c = '\u00A0' || c = '\u1680' ||
  ('\u2000' ≤ c && c ≤ '\u200A') ||
  c = '\u2028' || c = '\u2029' || c = '\u202F' || c = '\u205F' || c = '\u3000'

/-- Rust `str::trim`: drop leading and trailing whitespace. -/
def trim (l : List Char) : List Char :=
  ((l.dropWhile isWS).reverse.dropWhile isWS).reverse

/-- Accumulator-based splitter behind `splitWS`; `acc` holds the current
token in reverse. -/
def splitWSAux : List Char → List Char → List (List Char)
  | [], acc => if acc = [] then [] else [acc.reverse]
  | c :: rest, acc =>
    if isWS c then
      if acc = [] then splitWSAux rest []
      else acc.reverse :: splitWSAux rest []
    else splitWSAux rest (c :: acc)

/-- Rust `str::split_whitespace`: split at runs of whitespace, yielding no
empty tokens. -/
def splitWS (l : List Char) : List (List Char) := splitWSAux l []

/-- Finish one newline-terminated line: `acc` holds its characters in
reverse, and a carriage return directly before the newline is stripped
(Rust `str::lines`). -/
def finishLine (acc : List Char) : List Char :=
  match acc with
  | '\r' :: acc2 => acc2.reverse
  | _ => acc.reverse

/-- Accumulator-based splitter behind `linesOf`. A final segment without a
terminating newline is yielded as-is (no `\r` stripping), matching Rust's
`split_inclusive`-based `str::lines`. -/
def linesAux : List Char → List Char → List (List Char)
  | [], acc => if acc = [] then [] else [acc.reverse]
  | c :: rest, acc =>
    if c = '\n' then finishLine acc :: linesAux rest []
    else linesAux rest (c :: acc)

/-- Rust `str::lines`. -/
def linesOf (l : List Char) : List (List Char) := linesAux l []

/-- Rust `str::starts_with` (first argument is the pattern). -/
def startsWith : List Char → List Char → Bool
  | [], _ => true
  | _ :: _, [] => false
  | p :: ps, c :: cs => p = c && startsWith ps cs

/-- UTF-8 byte length of a string, Rust `str::len`. -/
def utf8Len (l : List Char) : Nat := (l.map Char.utf8Size).sum

/-- `LsOutputFile` of `src/lib.rs`. -/
structure LsOutputFile where
  name : List Char
  size_bytes : Int
deriving DecidableEq

/-- `LsOutput` of `src/lib.rs`. -/
structure LsOutput where
  files : List LsOutputFile
  folders : List (List Char)
deriving DecidableEq

/-- `ErrorKind` of `src/lib.rs`. -/
inductive ErrorKind where
  | MissingFileMode
  | MissingLinkCount
  | MissingOwner
  | MissingGroup
  | MissingSize
  | InvalidSize (token : List Char)
  | MissingMonth
  | MissingDay
  | MissingTimestamp
  | MissingName
  | EmptyQuotedName
  | InvalidEscapeSequence
deriving DecidableEq

/-- `Error` of `src/lib.rs`: the failure kind plus the offending line. -/
structure Error where
  kind : ErrorKind
  line : List Char
deriving DecidableEq

/-- `ParsedLine` of `src/lib.rs`. -/
inductive ParsedLine where
  | File (file : LsOutputFile)
  | Folder (folder : List Char)
deriving DecidableEq

deriving instance DecidableEq for Except

/-- Decimal value of a digit string. -/
def digitsVal (l : List Char) : Nat :=
  l.foldl (fun acc c => acc * 10 + (c.toNat - '0'.toNat)) 0

/-- ASCII decimal digit. -/
def isDigit (c : Char) : Bool := '0' ≤ c && c ≤ '9'

/-- Nonempty all-digit token with value at most `bound`, else `none`. -/
def parseBounded (ds : List Char) (bound : Nat) : Option Nat :=
  if ds = [] then none
  else if ds.all isDigit then
    if digitsVal ds ≤ bound then some (digitsVal ds) else none
  else none

/-- Rust `i64::from_str` (`size_token.parse::<i64>()`): an optional single
leading sign followed by one or more ASCII decimal digits, the value
required to fit in a signed 64-bit integer; anything else fails. -/
def parseI64 (s : List Char) : Option Int :=
  match s with
  | [] => none
  | '+' :: ds => (parseBounded ds (2 ^ 63 - 1)).map (fun n => (n : Int))
  | '-' :: ds => (parseBounded ds (2 ^ 63)).map (fun n => -(n : Int))
  | ds => (parseBounded ds (2 ^ 63 - 1)).map (fun n => (n : Int))

/-- The escape mapping of `unescape_double_quoted`: `n`, `r`, `t` become
the control characters, anything else is taken literally. -/
def escChar (e : Char) : Char :=
  if e = 'n' then '\n' else if e = 'r' then '\r' else if e = 't' then '\t' else e

/-- `unescape_double_quoted` of `src/lib.rs`: scan character by character;
a backslash consumes the next character through `escChar`, a trailing lone
backslash is an unterminated escape. -/
def unescape_double_quoted : List Char → Except ErrorKind (List Char)
  | [] => .ok []
  | c :: rest =>
    if c = '\\' then
      match rest with
      | [] => .error .InvalidEscapeSequence
      | e :: rest2 =>
        match unescape_double_quoted rest2 with
        | .error k => .error k
        | .ok v => .ok (escChar e :: v)
    else
      match unescape_double_quoted rest with
      | .error k => .error k
      | .ok v => .ok (c :: v)

/-- The inner of a quoted token: Rust `&raw[1..raw.len()-1]` where the
first and last bytes are ASCII quotes, i.e. drop the first and the last
character. -/
def inner (raw : List Char) : List Char := (raw.drop 1).dropLast

/-- `parse_name` of `src/lib.rs`. The Rust code tests `raw.len() >= 2` on
bytes and compares `as_bytes()[0]` and `as_bytes()[raw.len()-1]` with the
ASCII quote bytes; a first (resp. last) byte below `0x80` is exactly an
ASCII first (resp. last) character, so those byte tests are the character
tests written here. -/
def parse_name (raw : List Char) : Except ErrorKind (List Char) :=
  if raw = [] then .error .MissingName
  else if 2 ≤ utf8Len raw then
    if raw.head? = some '"' ∧ raw.getLast? = some '"' then
      match unescape_double_quoted (inner raw) with
      | .error k => .error k
      | .ok v => if v = [] then .error .EmptyQuotedName else .ok v
    else if raw.head? = some '\'' ∧ raw.getLast? = some '\'' then
      if inner raw = [] then .error .EmptyQuotedName else .ok (inner raw)
    else .ok raw
  else .ok raw

/-- The symlink/device skip test of `parse_line`: Rust
`file_mode.len() == 10` (bytes) and `file_mode.as_bytes()[0]` equal to
`b'l'`, `b'b'` or `b'c'` (an ASCII first byte is the first character). -/
def skipMode (fm : List Char) : Prop :=
  utf8Len fm = 10 ∧ (fm.head? = some 'l' ∨ fm.head? = some 'b' ∨ fm.head? = some 'c')

instance : DecidablePred skipMode := fun fm => by
  unfold skipMode; infer_instance

/-- Rust `parts.collect::<Vec<_>>().join(" ")`. -/
def joinSpace (parts : List (List Char)) : List Char := List.intercalate [' '] parts

/-- The `while raw_name.ends_with('/') { raw_name.pop(); }` loop: drop the
trailing run of slashes. -/
def dropSlashes (l : List Char) : List Char :=
  (l.reverse.dropWhile (fun c => c = '/')).reverse

/-- `parse_line` of `src/lib.rs`. -/
def parse_line (line : List Char) : Except ErrorKind (Option ParsedLine) :=
  if line = [] ∨ startsWith (str "total ") line then .ok none
  else
    match splitWS line with
    | [] => .error .MissingFileMode
    | file_mode :: parts1 =>
      if skipMode file_mode then .ok none
      else
        match parts1 with
        | [] => .error .MissingLinkCount
        | [_] => .error .MissingOwner
        | [_, _] => .error .MissingGroup
        | [_, _, _] => .error .MissingSize
        | _ :: _ :: _ :: size_token :: parts5 =>
          match parseI64 size_token with
          | none => .error (.InvalidSize size_token)
          | some size =>
            match parts5 with
            | [] => .error .MissingMonth
            | [_] => .error .MissingDay
            | [_, _] => .error .MissingTimestamp
            | _ :: _ :: _ :: name_parts =>
              let raw_name := joinSpace name_parts
              if raw_name = [] then .error .MissingName
              else
                let raw_name2 :=
                  if raw_name.getLast? = some '/' then dropSlashes raw_name else raw_name
                match parse_name raw_name2 with
                | .error k => .error k
                | .ok name =>
                  if name = str "." ∨ name = str ".." then .ok none
                  else if raw_name.getLast? = some '/' then
                    if name = [] then .ok none
                    else .ok (some (.Folder name))
                  else .ok (some (.File ⟨name, size⟩))

/-- The leading continuation-marker stripping of `LsOutput::from_str`:
`strip_prefix("\\\r\n").or_else(strip_prefix("\\\n")).unwrap_or(s)`. -/
def stripCont (s : List Char) : List Char :=
  if startsWith (str "\\\r\n") s then s.drop 3
  else if startsWith (str "\\\n") s then s.drop 2
  else s

/-- The accumulation loop of `LsOutput::from_str`: trim each raw line,
classify it, push files and folders in visitation order, abort on the
first error attaching the trimmed line. -/
def processLines : List (List Char) → Except Error (List LsOutputFile × List (List Char))
  | [] => .ok ([], [])
  | raw_line :: rest =>
    let line := trim raw_line
    match parse_line line with
    | .error k => .error ⟨k, line⟩
    | .ok none => processLines rest
    | .ok (some (.File f)) =>
      match processLines rest with
      | .error e => .error e
      | .ok (fs, ds) => .ok (f :: fs, ds)
    | .ok (some (.Folder d)) =>
      match processLines rest with
      | .error e => .error e
      | .ok (fs, ds) => .ok (fs, d :: ds)

/-- Rust `String` ordering (`Ord` on `str` compares UTF-8 bytes, which for
valid UTF-8 is lexicographic on Unicode scalar values). -/
def leChars : List Char → List Char → Bool
  | [], _ => true
  | _ :: _, [] => false
  | a :: xs, b :: ys =>
    if a.toNat < b.toNat then true
    else if b.toNat < a.toNat then false
    else leChars xs ys

/-- `files.sort_by(|a, b| a.name.cmp(&b.name))`. -/
def fileLe (a b : LsOutputFile) : Bool := leChars a.name b.name

/-- Insert an element into a sorted list, before the first element it
compares less-or-equal to. -/
def insertSorted (le : α → α → Bool) (a : α) : List α → List α
  | [] => [a]
  | b :: bs => if le a b then a :: b :: bs else b :: insertSorted le a bs

/-- Stable insertion sort, the model of Rust's stable `sort_by`/`sort`
(any stable comparison sort computes the same list). -/
def sortBy (le : α → α → Bool) : List α → List α
  | [] => []
  | a :: rest => insertSorted le a (sortBy le rest)

/-- The line-splitting, accumulation and sorting pipeline of
`LsOutput::from_str`, i.e. everything after the one-time
continuation-marker stripping. -/
def parseLines (s : List Char) : Except Error LsOutput :=
  match processLines (linesOf s) with
  | .error e => .error e
  | .ok (fs, ds) => .ok ⟨sortBy fileLe fs, sortBy leChars ds⟩

/-- `LsOutput::from_str` of `src/lib.rs`: strip one leading continuation
marker, split into lines, classify each trimmed line accumulating entries,
then sort files by name and folders. -/
def from_str (s : List Char) : Except Error LsOutput :=
  parseLines (stripCont s)

/-- The name carried by a parsed entry. -/
def entryName : ParsedLine → List Char
  | .File f => f.name
  | .Folder d => d

/-- The Name Decoder as §4.3 of the spec words it, for comparison with
`parse_name`: precedence is (1) empty input errors, (2) a token of at
least 2 characters wrapped in a matching pair of double quotes is stripped
and unescaped with an empty interior an error, (3) a token wrapped in a
matching pair of single quotes is stripped with the interior literal and
an empty interior an error, (4) otherwise the token is taken verbatim. -/
def parseNameSpec (raw : List Char) : Except ErrorKind (List Char) :=
  if raw = [] then .error .MissingName
  else if 2 ≤ raw.length ∧ raw.head? = some '"' ∧ raw.getLast? = some '"' then
    match unescape_double_quoted (inner raw) with
    | .error k => .error k
    | .ok v => if v = [] then .error .EmptyQuotedName else .ok v
  else if 2 ≤ raw.length ∧ raw.head? = some '\'' ∧ raw.getLast? = some '\'' then
    if inner raw = [] then .error .EmptyQuotedName else .ok (inner raw)
  else .ok raw

/-- `parse_line` with the defensive skip of a directory whose decoded name
is empty removed, used to state that that branch is unreachable. -/
def parse_lineND (line : List Char) : Except ErrorKind (Option ParsedLine) :=
  if line = [] ∨ startsWith (str "total ") line then .ok none
  else
    match splitWS line with
    | [] => .error .MissingFileMode
    | file_mode :: parts1 =>
      if skipMode file_mode then .ok none
      else
        match parts1 with
        | [] => .error .MissingLinkCount
        | [_] => .error .MissingOwner
        | [_, _] => .error .MissingGroup
        | [_, _, _] => .error .MissingSize
        | _ :: _ :: _ :: size_token :: parts5 =>
          match parseI64 size_token with
          | none => .error (.InvalidSize size_token)
          | some size =>
            match parts5 with
            | [] => .error .MissingMonth
            | [_] => .error .MissingDay
            | [_, _] => .error .MissingTimestamp
            | _ :: _ :: _ :: name_parts =>
              let raw_name := joinSpace name_parts
              if raw_name = [] then .error .MissingName
              else
                let raw_name2 :=
                  if raw_name.getLast? = some '/' then dropSlashes raw_name else raw_name
                match parse_name raw_name2 with
                | .error k => .error k
                | .ok name =>
                  if name = str "." ∨ name = str ".." then .ok none
                  else if raw_name.getLast? = some '/' then .ok (some (.Folder name))
                  else .ok (some (.File ⟨name, size⟩))

/-! ## Helper lemmas -/

theorem leChars_cons_iff (a b : Char) (xs ys : List Char) :
    leChars (a :: xs) (b :: ys) = true ↔
      a.toNat < b.toNat ∨ (a.toNat = b.toNat ∧ leChars xs ys = true) := by
  by_cases h1 : a.toNat < b.toNat
  · simp [leChars, h1]
  · by_cases h2 : b.toNat < a.toNat
    · simp only [leChars, if_neg h1, if_pos h2, Bool.false_eq_true, false_iff]
      rintro (h | ⟨he, _⟩)
      · exact h1 h
      · omega
    · have he : a.toNat = b.toNat := Nat.le_antisymm (Nat.not_lt.mp h2) (Nat.not_lt.mp h1)
      simp only [leChars, if_neg h1, if_neg h2]
      constructor
      · intro h; exact Or.inr ⟨he, h⟩
      · rintro (h | ⟨_, h⟩)
        · exact absurd h h1
        · exact h

theorem leChars_trans (a b c : List Char) (hab : leChars a b = true)
    (hbc : leChars b c = true) : leChars a c = true := by
  induction a generalizing b c with
  | nil => rfl
  | cons x xs ih =>
    cases b with
    | nil => simp [leChars] at hab
    | cons y ys =>
      cases c with
      | nil => simp [leChars] at hbc
      | cons z zs =>
        rw [leChars_cons_iff] at hab hbc ⊢
        rcases hab with h1 | ⟨h1, h1r⟩ <;> rcases hbc with h2 | ⟨h2, h2r⟩
        · exact Or.inl (Nat.lt_trans h1 h2)
        · exact Or.inl (h2 ▸ h1)
        · exact Or.inl (h1 ▸ h2)
        · exact Or.inr ⟨h1.trans h2, ih ys zs h1r h2r⟩

theorem leChars_total (a b : List Char) : (leChars a b || leChars b a) = true := by
  induction a generalizing b with
  | nil => simp [leChars]
  | cons x xs ih =>
    cases b with
    | nil => simp [leChars]
    | cons y ys =>
      simp only [Bool.or_eq_true, leChars_cons_iff]
      rcases Nat.lt_trichotomy x.toNat y.toNat with h | h | h
      · exact Or.inl (Or.inl h)
      · rcases Bool.or_eq_true _ _ |>.mp (ih ys) with hr | hr
        · exact Or.inl (Or.inr ⟨h, hr⟩)
        · exact Or.inr (Or.inr ⟨h.symm, hr⟩)
      · exact Or.inr (Or.inl h)

theorem fileLe_trans (a b c : LsOutputFile) (hab : fileLe a b = true)
    (hbc : fileLe b c = true) : fileLe a c = true :=
  leChars_trans a.name b.name c.name hab hbc

theorem fileLe_total (a b : LsOutputFile) : (fileLe a b || fileLe b a) = true :=
  leChars_total a.name b.name

theorem length_le_utf8Len (l : List Char) : l.length ≤ utf8Len l := by
  induction l with
  | nil => simp [utf8Len]
  | cons c cs ih =>
    simp only [utf8Len, List.map_cons, List.sum_cons, List.length_cons]
    have := Char.utf8Size_pos c
    have : cs.length ≤ (cs.map Char.utf8Size).sum := ih
    omega

theorem mem_insertSorted (le : α → α → Bool) (a b : α) (l : List α) :
    b ∈ insertSorted le a l ↔ b = a ∨ b ∈ l := by
  induction l with
  | nil => simp [insertSorted]
  | cons c cs ih =>
    rw [show insertSorted le a (c :: cs) =
          (if le a c then a :: c :: cs else c :: insertSorted le a cs) from rfl]
    split
    · simp [or_comm, or_assoc, eq_comm]
    · simp only [List.mem_cons, ih]
      tauto

theorem mem_sortBy (le : α → α → Bool) (b : α) (l : List α) :
    b ∈ sortBy le l ↔ b ∈ l := by
  induction l with
  | nil => simp [sortBy]
  | cons c cs ih =>
    rw [show sortBy le (c :: cs) = insertSorted le c (sortBy le cs) from rfl]
    rw [mem_insertSorted, ih]
    simp

theorem pairwise_insertSorted (le : α → α → Bool)
    (htrans : ∀ a b c, le a b = true → le b c = true → le a c = true)
    (htot : ∀ a b, (le a b || le b a) = true)
    (a : α) (l : List α) (hl : l.Pairwise (fun x y => le x y = true)) :
    (insertSorted le a l).Pairwise (fun x y => le x y = true) := by
  induction l with
  | nil => simp [insertSorted]
  | cons b bs ih =>
    rw [show insertSorted le a (b :: bs) =
          (if le a b then a :: b :: bs else b :: insertSorted le a bs) from rfl]
    rcases List.pairwise_cons.mp hl with ⟨hb, hbs⟩
    by_cases hab : le a b = true
    · rw [if_pos hab]
      refine List.pairwise_cons.mpr ⟨?_, hl⟩
      intro y hy
      rcases List.mem_cons.mp hy with rfl | hy2
      · exact hab
      · exact htrans a b y hab (hb y hy2)
    · rw [if_neg hab]
      have hba : le b a = true := by
        rcases Bool.or_eq_true _ _ |>.mp (htot a b) with h | h
        · exact absurd h hab
        · exact h
      refine List.pairwise_cons.mpr ⟨?_, ih hbs⟩
      intro y hy
      rcases (mem_insertSorted le a y bs).mp hy with rfl | hy2
      · exact hba
      · exact hb y hy2

theorem pairwise_sortBy (le : α → α → Bool)
    (htrans : ∀ a b c, le a b = true → le b c = true → le a c = true)
    (htot : ∀ a b, (le a b || le b a) = true)
    (l : List α) : (sortBy le l).Pairwise (fun x y => le x y = true) := by
  induction l with
  | nil => simp [sortBy]
  | cons c cs ih =>
    rw [show sortBy le (c :: cs) = insertSorted le c (sortBy le cs) from rfl]
    exact pairwise_insertSorted le htrans htot c (sortBy le cs) ih

/-- Evaluation of `parse_line` on a line with at least nine columns whose
mode does not trigger the symlink/device skip. -/
theorem parse_line_eval (line fm t1 t2 t3 sz t4 t5 t6 : List Char)
    (nameToks : List (List Char))
    (hsplit : splitWS line = fm :: t1 :: t2 :: t3 :: sz :: t4 :: t5 :: t6 :: nameToks)
    (hne : ¬(line = [] ∨ startsWith (str "total ") line = true))
    (hskip : ¬ skipMode fm) :
    parse_line line =
      match parseI64 sz with
      | none => .error (.InvalidSize sz)
      | some size =>
        if joinSpace nameToks = [] then .error .MissingName
        else
          match parse_name (if (joinSpace nameToks).getLast? = some '/' then
              dropSlashes (joinSpace nameToks) else joinSpace nameToks) with
          | .error k => .error k
          | .ok name =>
            if name = str "." ∨ name = str ".." then .ok none
            else if (joinSpace nameToks).getLast? = some '/' then
              if name = [] then .ok none
              else .ok (some (.Folder name))
            else .ok (some (.File ⟨name, size⟩)) := by
  unfold parse_line
  rw [if_neg hne, hsplit]
  dsimp only
  rw [if_neg hskip]

theorem parse_name_ok_ne_nil (raw v : List Char) (h : parse_name raw = .ok v) :
    v ≠ [] := by
  unfold parse_name at h
  repeat' split at h
  all_goals simp_all

theorem parse_line_some_ne_dot (line : List Char) (pl : ParsedLine)
    (h : parse_line line = .ok (some pl)) :
    entryName pl ≠ str "." ∧ entryName pl ≠ str ".." := by
  unfold parse_line at h
  repeat' (first | split at h | dsimp only at h)
  all_goals try exact Except.noConfusion h
  all_goals try exact Option.noConfusion (Except.ok.inj h)
  all_goals obtain rfl := Option.some.inj (Except.ok.inj h)
  all_goals simp_all [entryName, not_or]

theorem processLines_no_dot (ls : List (List Char)) (fs : List LsOutputFile)
    (ds : List (List Char)) (h : processLines ls = .ok (fs, ds)) :
    (∀ f ∈ fs, f.name ≠ str "." ∧ f.name ≠ str "..") ∧
    (∀ d ∈ ds, d ≠ str "." ∧ d ≠ str "..") := by
  induction ls generalizing fs ds with
  | nil =>
    injection h with h2
    injection h2 with h3 h4
    subst h3; subst h4
    exact ⟨fun f hf => absurd hf (List.not_mem_nil f),
           fun d hd => absurd hd (List.not_mem_nil d)⟩
  | cons raw rest ih =>
    rw [show processLines (raw :: rest) =
          (match parse_line (trim raw) with
           | .error k => .error ⟨k, trim raw⟩
           | .ok none => processLines rest
           | .ok (some (.File f)) =>
             match processLines rest with
             | .error e => .error e
             | .ok (fs, ds) => .ok (f :: fs, ds)
           | .ok (some (.Folder d)) =>
             match processLines rest with
             | .error e => .error e
             | .ok (fs, ds) => .ok (fs, d :: ds)) from rfl] at h
    cases hp : parse_line (trim raw) with
    | error k => rw [hp] at h; exact Except.noConfusion h
    | ok r =>
      cases r with
      | none => rw [hp] at h; exact ih fs ds h
      | some pl =>
        cases pl with
        | File f =>
          rw [hp] at h
          cases hrec : processLines rest with
          | error e => rw [hrec] at h; exact Except.noConfusion h
          | ok p =>
            obtain ⟨fs2, ds2⟩ := p
            rw [hrec] at h
            injection h with h2
            injection h2 with h3 h4
            subst h3; subst h4
            have hd := parse_line_some_ne_dot (trim raw) (.File f) hp
            have hrest := ih fs2 ds2 hrec
            refine ⟨fun g hg => ?_, hrest.2⟩
            rcases List.mem_cons.mp hg with rfl | hg2
            · exact hd
            · exact hrest.1 g hg2
        | Folder d =>
          rw [hp] at h
          cases hrec : processLines rest with
          | error e => rw [hrec] at h; exact Except.noConfusion h
          | ok p =>
            obtain ⟨fs2, ds2⟩ := p
            rw [hrec] at h
            injection h with h2
            injection h2 with h3 h4
            subst h3; subst h4
            have hd := parse_line_some_ne_dot (trim raw) (.Folder d) hp
            have hrest := ih fs2 ds2 hrec
            refine ⟨hrest.1, fun g hg => ?_⟩
            rcases List.mem_cons.mp hg with rfl | hg2
            · exact hd
            · exact hrest.2 g hg2

theorem processLines_cons (raw : List Char) (rest : List (List Char)) :
    processLines (raw :: rest) =
      match parse_line (trim raw) with
      | .error k => .error ⟨k, trim raw⟩
      | .ok none => processLines rest
      | .ok (some (.File f)) =>
        match processLines rest with
        | .error e => .error e
        | .ok (fs, ds) => .ok (f :: fs, ds)
      | .ok (some (.Folder d)) =>
        match processLines rest with
        | .error e => .error e
        | .ok (fs, ds) => .ok (fs, d :: ds) := rfl

theorem processLines_append_error (pre : List (List Char)) (l : List Char)
    (post : List (List Char)) (k : ErrorKind)
    (hpre : ∀ l2 ∈ pre, ∀ k2, parse_line (trim l2) ≠ .error k2)
    (herr : parse_line (trim l) = .error k) :
    processLines (pre ++ l :: post) = .error ⟨k, trim l⟩ := by
  induction pre with
  | nil =>
    rw [List.nil_append, processLines_cons, herr]
  | cons p pre2 ih =>
    have hrec := ih fun l2 hl2 => hpre l2 (List.mem_cons_of_mem p hl2)
    rw [List.cons_append, processLines_cons]
    cases hp : parse_line (trim p) with
    | error k2 => exact absurd hp (hpre p (List.mem_cons_self p _) k2)
    | ok r =>
      cases r with
      | none => exact hrec
      | some pl =>
        cases pl with
        | File f => rw [hrec]
        | Folder d => rw [hrec]

theorem processLines_all_skip (ls : List (List Char))
    (h : ∀ l ∈ ls, parse_line (trim l) = .ok none) :
    processLines ls = .ok ([], []) := by
  induction ls with
  | nil => rfl
  | cons p rest ih =>
    rw [processLines_cons, h p (List.mem_cons_self p rest)]
    exact ih fun l hl => h l (List.mem_cons_of_mem p hl)

/-! ## Claims -/

/-- C1: for every input string on which parsing succeeds, the resulting
listing's `files` sequence is sorted ascending by name, its `folders`
sequence is sorted ascending, and no entry of either sequence is named
"." or "..", independently of how those names were quoted. -/
theorem C1_sorted_and_no_dots (s : List Char) (out : LsOutput)
    (h : from_str s = .ok out) :
    out.files.Pairwise (fun a b => fileLe a b = true) ∧
    out.folders.Pairwise (fun a b => leChars a b = true) ∧
    (∀ f ∈ out.files, f.name ≠ str "." ∧ f.name ≠ str "..") ∧
    (∀ d ∈ out.folders, d ≠ str "." ∧ d ≠ str "..") := by
  unfold from_str parseLines at h
  cases hp : processLines (linesOf (stripCont s)) with
  | error e => rw [hp] at h; exact Except.noConfusion h
  | ok p =>
    obtain ⟨fs, ds⟩ := p
    rw [hp] at h
    injection h with h2
    subst h2
    have hnd := processLines_no_dot _ _ _ hp
    exact ⟨pairwise_sortBy fileLe fileLe_trans fileLe_total fs,
           pairwise_sortBy leChars leChars_trans leChars_total ds,
           fun f hf => hnd.1 f ((mem_sortBy fileLe f fs).mp hf),
           fun d hd => hnd.2 d ((mem_sortBy leChars d ds).mp hd)⟩

theorem C1_sorted_and_no_dots_witness :
    from_str (str "-rw-r--r-- 1 u u 5 Jan  1 00:00 b\n-rw-r--r-- 1 u u 3 Jan  1 00:00 a") =
      .ok ⟨[⟨str "a", 3⟩, ⟨str "b", 5⟩], []⟩ ∧
    ([⟨str "a", (3 : Int)⟩, ⟨str "b", (5 : Int)⟩] : List LsOutputFile).Pairwise
      (fun a b => fileLe a b = true) :=
  ⟨by decide,
   (C1_sorted_and_no_dots
     (str "-rw-r--r-- 1 u u 5 Jan  1 00:00 b\n-rw-r--r-- 1 u u 3 Jan  1 00:00 a")
     ⟨[⟨str "a", 3⟩, ⟨str "b", 5⟩], []⟩ (by decide)).1⟩

/-- C2: when the lines of the continuation-stripped input split as
`pre ++ l :: post` with every line of `pre` classifying without error and
the trimmed text of `l` failing to classify with kind `k` (`l` is the
first malformed line in visitation order), the whole parse fails with
exactly the error carrying kind `k` and the trimmed text of `l`; no
partial listing is returned.  In particular parsing the single line
"broken line" fails with an error whose line field is "broken line"
(see the witness). -/
theorem C2_first_error_propagates (s : List Char) (pre : List (List Char))
    (l : List Char) (post : List (List Char)) (k : ErrorKind)
    (hsplit : linesOf (stripCont s) = pre ++ l :: post)
    (hpre : ∀ l2 ∈ pre, ∀ k2, parse_line (trim l2) ≠ .error k2)
    (herr : parse_line (trim l) = .error k) :
    from_str s = .error ⟨k, trim l⟩ := by
  unfold from_str parseLines
  rw [hsplit, processLines_append_error pre l post k hpre herr]

theorem C2_first_error_propagates_witness :
    from_str (str "broken line") = .error ⟨.MissingOwner, str "broken line"⟩ := by
  have h := C2_first_error_propagates (str "broken line") [] (str "broken line") []
    .MissingOwner (by decide) (by simp) (by decide)
  rwa [show trim (str "broken line") = str "broken line" from by decide] at h

/-- C7: every line that is blank after trimming or whose trimmed text
begins with "total " is skipped silently, and an input consisting only of
such lines parses successfully to a listing with both sequences empty. -/
theorem C7_blank_and_total_skipped :
    (∀ l : List Char, trim l = [] ∨ startsWith (str "total ") (trim l) = true →
      parse_line (trim l) = .ok none) ∧
    (∀ s : List Char,
      (∀ l ∈ linesOf (stripCont s),
        trim l = [] ∨ startsWith (str "total ") (trim l) = true) →
      from_str s = .ok ⟨[], []⟩) := by
  constructor
  · intro l h
    unfold parse_line
    rw [if_pos h]
  · intro s h
    unfold from_str parseLines
    rw [processLines_all_skip _ fun l hl => by unfold parse_line; rw [if_pos (h l hl)]]
    rfl

theorem C7_blank_and_total_skipped_witness :
    from_str (str "total 16\n   \n") = .ok ⟨[], []⟩ :=
  C7_blank_and_total_skipped.2 (str "total 16\n   \n") (by decide)

/-- C8: an input beginning with a backslash-newline continuation marker
(either line-ending convention) has exactly that one leading marker
removed before line splitting and is otherwise parsed unchanged, and an
input not beginning with such a marker is parsed as-is (markers anywhere
else are never stripped). -/
theorem C8_continuation_marker (s : List Char) :
    (from_str (str "\\\r\n" ++ s) = parseLines s) ∧
    (from_str (str "\\\n" ++ s) = parseLines s) ∧
    (startsWith (str "\\\r\n") s = false → startsWith (str "\\\n") s = false →
      from_str s = parseLines s) := by
  refine ⟨?_, ?_, ?_⟩
  · unfold from_str stripCont
    rw [if_pos (show startsWith (str "\\\r\n") (str "\\\r\n" ++ s) = true from rfl)]
    rfl
  · unfold from_str stripCont
    rw [if_neg (show ¬startsWith (str "\\\r\n") (str "\\\n" ++ s) = true by
          intro hh; exact Bool.noConfusion hh),
        if_pos (show startsWith (str "\\\n") (str "\\\n" ++ s) = true from rfl)]
    rfl
  · intro h1 h2
    unfold from_str stripCont
    rw [if_neg (by simp [h1]), if_neg (by simp [h2])]

theorem C8_continuation_marker_witness :
    from_str (str "abc") = parseLines (str "abc") :=
  (C8_continuation_marker (str "abc")).2.2 (by decide) (by decide)

/-- C3 counterexample: a first token of exactly 10 characters starting
with 'l' whose UTF-8 byte length is not 10 is not skipped: the line
produces a file entry, contradicting the claim as stated. -/
theorem C3_counterexample :
    (splitWS (str "lжжжжжжжжж 1 u u 5 Jan 1 00:00 x")).head? = some (str "lжжжжжжжжж") ∧
    (str "lжжжжжжжжж").length = 10 ∧
    (str "lжжжжжжжжж").head? = some 'l' ∧
    parse_line (str "lжжжжжжжжж 1 u u 5 Jan 1 00:00 x") =
      .ok (some (.File ⟨str "x", 5⟩)) ∧
    parse_line (str "lжжжжжжжжж 1 u u 5 Jan 1 00:00 x") ≠ .ok none := by
  refine ⟨by decide, by decide, by decide, by decide, by decide⟩

/-- C3 (amended): every line whose first whitespace-delimited token is
exactly 10 UTF-8 bytes long and begins with 'l', 'b' or 'c' is classified
as skip: it produces no entry and no error, whatever the remaining
columns contain, because the skip decision precedes all further column
and size validation. -/
theorem C3_mode_skip (line fm : List Char) (rest : List (List Char))
    (hsplit : splitWS line = fm :: rest)
    (hlen : utf8Len fm = 10)
    (hhead : fm.head? = some 'l' ∨ fm.head? = some 'b' ∨ fm.head? = some 'c') :
    parse_line line = .ok none := by
  unfold parse_line
  split
  · rfl
  · rw [hsplit]
    dsimp only
    rw [if_pos ⟨hlen, hhead⟩]

theorem C3_mode_skip_witness :
    parse_line (str "lrwxrwxrwx 1 user user 6 Jan 1 12:04 link -> target") = .ok none :=
  C3_mode_skip (str "lrwxrwxrwx 1 user user 6 Jan 1 12:04 link -> target")
    (str "lrwxrwxrwx")
    [str "1", str "user", str "user", str "6", str "Jan", str "1", str "12:04",
     str "link", str "->", str "target"]
    (by decide) (by decide) (by decide)

/-- C4: for every non-skipped line with at least five columns, the fifth
column must parse as a base-10 signed 64-bit integer: if it does not
(including out-of-range values), the line fails with `InvalidSize`
carrying exactly the offending token, and if it parses as `n` then a file
entry produced by the line carries `size_bytes = n`. -/
theorem C4_size_column (line fm t1 t2 t3 sz : List Char) (rest5 : List (List Char))
    (hsplit : splitWS line = fm :: t1 :: t2 :: t3 :: sz :: rest5)
    (hne : ¬(line = [] ∨ startsWith (str "total ") line = true))
    (hskip : ¬ skipMode fm) :
    (parseI64 sz = none → parse_line line = .error (.InvalidSize sz)) ∧
    (∀ n : Int, ∀ f : LsOutputFile, parseI64 sz = some n →
      parse_line line = .ok (some (.File f)) → f.size_bytes = n) := by
  constructor
  · intro hnone
    unfold parse_line
    rw [if_neg hne, hsplit]
    dsimp only
    rw [if_neg hskip, hnone]
  · intro n f hsome hline
    unfold parse_line at hline
    rw [if_neg hne, hsplit] at hline
    dsimp only at hline
    rw [if_neg hskip, hsome] at hline
    repeat' (first | split at hline | dsimp only at hline)
    all_goals try exact Except.noConfusion hline
    all_goals try exact Option.noConfusion (Except.ok.inj hline)
    all_goals try exact ParsedLine.noConfusion (Option.some.inj (Except.ok.inj hline))
    all_goals simp_all
    all_goals (subst hline; rfl)

theorem C4_size_column_witness :
    parse_line (str "-rw-r--r-- 1 root disk 8, 0 Jan 1 12:00 sda") =
      .error (.InvalidSize (str "8,")) ∧
    parse_line (str "-rw-r--r-- 1 u u 9223372036854775808 Jan 1 00:00 x") =
      .error (.InvalidSize (str "9223372036854775808")) :=
  ⟨(C4_size_column (str "-rw-r--r-- 1 root disk 8, 0 Jan 1 12:00 sda")
      (str "-rw-r--r--") (str "1") (str "root") (str "disk") (str "8,")
      [str "0", str "Jan", str "1", str "12:00", str "sda"]
      (by decide) (by decide) (by decide)).1 (by decide),
   (C4_size_column (str "-rw-r--r-- 1 u u 9223372036854775808 Jan 1 00:00 x")
      (str "-rw-r--r--") (str "1") (str "u") (str "u")
      (str "9223372036854775808")
      [str "Jan", str "1", str "00:00", str "x"]
      (by decide) (by decide) (by decide)).1 (by decide)⟩

theorem unescape_esc (e : Char) (rest : List Char) :
    unescape_double_quoted ('\\' :: e :: rest) =
      (unescape_double_quoted rest).map (fun v => escChar e :: v) := by
  conv_lhs => rw [unescape_double_quoted.eq_def]
  dsimp only
  rw [if_pos rfl]
  cases unescape_double_quoted rest <;> rfl

theorem unescape_ord (c : Char) (rest : List Char) (hc : c ≠ '\\') :
    unescape_double_quoted (c :: rest) =
      (unescape_double_quoted rest).map (fun v => c :: v) := by
  conv_lhs => rw [unescape_double_quoted.eq_def]
  dsimp only
  rw [if_neg hc]
  cases unescape_double_quoted rest <;> rfl

theorem parse_name_eq_spec (raw : List Char) : parse_name raw = parseNameSpec raw := by
  by_cases h0 : raw = []
  · subst h0; rfl
  · unfold parse_name parseNameSpec
    rw [if_neg h0, if_neg h0]
    by_cases hd : raw.head? = some '"' ∧ raw.getLast? = some '"'
    · by_cases h2 : 2 ≤ raw.length
      · rw [if_pos (le_trans h2 (length_le_utf8Len raw)), if_pos hd,
            if_pos ⟨h2, hd.1, hd.2⟩]
      · have hr : raw = ['"'] := by
          cases raw with
          | nil => exact absurd rfl h0
          | cons a l =>
            cases l with
            | nil =>
              have ha : a = '"' := by
                have h3 := hd.1
                simp [List.head?] at h3
                exact h3
              rw [ha]
            | cons b l2 => exact absurd (Nat.le_add_left 2 l2.length) h2
        subst hr
        rfl
    · by_cases hs : raw.head? = some '\'' ∧ raw.getLast? = some '\''
      · by_cases h2 : 2 ≤ raw.length
        · rw [if_neg (show ¬(2 ≤ raw.length ∧ raw.head? = some '"' ∧
                raw.getLast? = some '"') from fun hh => hd ⟨hh.2.1, hh.2.2⟩),
              if_pos (le_trans h2 (length_le_utf8Len raw)), if_neg hd, if_pos hs,
              if_pos (show 2 ≤ raw.length ∧ raw.head? = some '\'' ∧
                raw.getLast? = some '\'' from ⟨h2, hs.1, hs.2⟩)]
        · have hr : raw = ['\''] := by
            cases raw with
            | nil => exact absurd rfl h0
            | cons a l =>
              cases l with
              | nil =>
                have ha : a = '\'' := by
                  have h3 := hs.1
                  simp [List.head?] at h3
                  exact h3
                rw [ha]
              | cons b l2 => exact absurd (Nat.le_add_left 2 l2.length) h2
          subst hr
          rfl
      · by_cases hu : 2 ≤ utf8Len raw
        · rw [if_pos hu, if_neg hd, if_neg hs,
              if_neg (show ¬(2 ≤ raw.length ∧ raw.head? = some '"' ∧ raw.getLast? = some '"') from fun hh => hd ⟨hh.2.1, hh.2.2⟩),
              if_neg (show ¬(2 ≤ raw.length ∧ raw.head? = some '\'' ∧ raw.getLast? = some '\'') from fun hh => hs ⟨hh.2.1, hh.2.2⟩)]
        · rw [if_neg hu, if_neg (show ¬(2 ≤ raw.length ∧ raw.head? = some '"' ∧ raw.getLast? = some '"') from fun hh => hd ⟨hh.2.1, hh.2.2⟩),
              if_neg (show ¬(2 ≤ raw.length ∧ raw.head? = some '\'' ∧ raw.getLast? = some '\'') from fun hh => hs ⟨hh.2.1, hh.2.2⟩)]

/-- C5: the name decoder implements exactly the spec's precedence rules:
it agrees with `parseNameSpec` (empty → double-quoted of at least two
characters, unescaped → single-quoted, literal → verbatim, with the
empty-quoted-name checks), and the double-quote unescaping maps
backslash-n/r/t to newline, carriage return and tab, takes any other
escaped character literally, errors on a trailing lone backslash, and
copies unescaped characters. -/
theorem C5_decoder_precedence :
    (∀ raw, parse_name raw = parseNameSpec raw) ∧
    (∀ rest, unescape_double_quoted ('\\' :: 'n' :: rest) =
       (unescape_double_quoted rest).map (fun v => '\n' :: v)) ∧
    (∀ rest, unescape_double_quoted ('\\' :: 'r' :: rest) =
       (unescape_double_quoted rest).map (fun v => '\r' :: v)) ∧
    (∀ rest, unescape_double_quoted ('\\' :: 't' :: rest) =
       (unescape_double_quoted rest).map (fun v => '\t' :: v)) ∧
    (∀ e rest, e ≠ 'n' → e ≠ 'r' → e ≠ 't' →
       unescape_double_quoted ('\\' :: e :: rest) =
       (unescape_double_quoted rest).map (fun v => e :: v)) ∧
    (unescape_double_quoted ['\\'] = .error .InvalidEscapeSequence) ∧
    (∀ c rest, c ≠ '\\' →
       unescape_double_quoted (c :: rest) =
       (unescape_double_quoted rest).map (fun v => c :: v)) := by
  refine ⟨parse_name_eq_spec, fun rest => unescape_esc 'n' rest,
          fun rest => unescape_esc 'r' rest, fun rest => unescape_esc 't' rest,
          fun e rest h1 h2 h3 => ?_, rfl, unescape_ord⟩
  have he : escChar e = e := by
    unfold escChar
    rw [if_neg h1, if_neg h2, if_neg h3]
  rw [unescape_esc e rest, he]

theorem C5_decoder_precedence_witness :
    parse_name (str "\"a\\tb\"") = parseNameSpec (str "\"a\\tb\"") ∧
    unescape_double_quoted ('\\' :: 'q' :: str "x") =
      (unescape_double_quoted (str "x")).map (fun v => 'q' :: v) :=
  ⟨C5_decoder_precedence.1 (str "\"a\\tb\""),
   C5_decoder_precedence.2.2.2.2.1 'q' (str "x") (by decide) (by decide) (by decide)⟩

/-- C6: a line with the full nine-column layout that produces an entry
produces a folder entry exactly when the whitespace-rejoined name ends in
'/', in which case the trailing slashes are stripped before decoding; any
other entry-producing line yields a file entry whose name decodes from
the rejoined name as-is and whose size is the parsed fifth column. -/
theorem C6_directory_detection (line fm t1 t2 t3 sz t4 t5 t6 : List Char)
    (nameToks : List (List Char))
    (hsplit : splitWS line = fm :: t1 :: t2 :: t3 :: sz :: t4 :: t5 :: t6 :: nameToks) :
    (∀ n, parse_line line = .ok (some (.Folder n)) →
       (joinSpace nameToks).getLast? = some '/' ∧
       parse_name (dropSlashes (joinSpace nameToks)) = .ok n) ∧
    (∀ f, parse_line line = .ok (some (.File f)) →
       (joinSpace nameToks).getLast? ≠ some '/' ∧
       parse_name (joinSpace nameToks) = .ok f.name ∧
       parseI64 sz = some f.size_bytes) := by
  by_cases hne : line = [] ∨ startsWith (str "total ") line = true
  · constructor
    · intro n hline
      unfold parse_line at hline
      rw [if_pos hne] at hline
      exact Option.noConfusion (Except.ok.inj hline)
    · intro f hline
      unfold parse_line at hline
      rw [if_pos hne] at hline
      exact Option.noConfusion (Except.ok.inj hline)
  · by_cases hskip : skipMode fm
    · constructor
      · intro n hline
        unfold parse_line at hline
        rw [if_neg hne, hsplit] at hline
        dsimp only at hline
        rw [if_pos hskip] at hline
        exact Option.noConfusion (Except.ok.inj hline)
      · intro f hline
        unfold parse_line at hline
        rw [if_neg hne, hsplit] at hline
        dsimp only at hline
        rw [if_pos hskip] at hline
        exact Option.noConfusion (Except.ok.inj hline)
    · constructor
      · intro n hline
        rw [parse_line_eval line fm t1 t2 t3 sz t4 t5 t6 nameToks hsplit hne hskip]
          at hline
        repeat' (first | split at hline | dsimp only at hline)
        all_goals try exact Except.noConfusion hline
        all_goals try exact Option.noConfusion (Except.ok.inj hline)
        all_goals try exact ParsedLine.noConfusion (Option.some.inj (Except.ok.inj hline))
        have h3 := ParsedLine.Folder.inj (Option.some.inj (Except.ok.inj hline))
        subst h3
        refine ⟨by assumption, ?_⟩
        rw [show dropSlashes (joinSpace nameToks) =
              (if (joinSpace nameToks).getLast? = some '/' then
                dropSlashes (joinSpace nameToks) else joinSpace nameToks) from
              (if_pos (by assumption)).symm]
        assumption
      · intro f hline
        rw [parse_line_eval line fm t1 t2 t3 sz t4 t5 t6 nameToks hsplit hne hskip]
          at hline
        repeat' (first | split at hline | dsimp only at hline)
        all_goals try exact Except.noConfusion hline
        all_goals try exact Option.noConfusion (Except.ok.inj hline)
        all_goals try exact ParsedLine.noConfusion (Option.some.inj (Except.ok.inj hline))
        have h3 := ParsedLine.File.inj (Option.some.inj (Except.ok.inj hline))
        subst h3
        refine ⟨by assumption, ?_, by assumption⟩
        rw [show joinSpace nameToks =
              (if (joinSpace nameToks).getLast? = some '/' then
                dropSlashes (joinSpace nameToks) else joinSpace nameToks) from
              (if_neg (by assumption)).symm]
        assumption

theorem C6_directory_detection_witness :
    (joinSpace [str "zeta/"]).getLast? = some '/' ∧
    parse_name (dropSlashes (joinSpace [str "zeta/"])) = .ok (str "zeta") :=
  (C6_directory_detection (str "drwxr-xr-x 4 user user 4096 Jan 1 12:02 zeta/")
    (str "drwxr-xr-x") (str "4") (str "user") (str "user") (str "4096") (str "Jan")
    (str "1") (str "12:02") [str "zeta/"] (by decide)).1 (str "zeta") (by decide)

/-- C9: the name decoder either fails or returns a non-empty name, so the
defensive branch of `parse_line` that skips a directory whose decoded
name is empty is unreachable: `parse_line` coincides everywhere with
`parse_lineND`, the variant with that branch removed. -/
theorem C9_decoder_nonempty_defensive_unreachable :
    (∀ raw v, parse_name raw = .ok v → v ≠ []) ∧
    (∀ line, parse_line line = parse_lineND line) := by
  refine ⟨parse_name_ok_ne_nil, fun line => ?_⟩
  unfold parse_line parse_lineND
  repeat' (first | split | dsimp only)
  all_goals (exfalso
             exact parse_name_ok_ne_nil _ _ (by assumption) (by assumption))

theorem C9_decoder_nonempty_defensive_unreachable_witness :
    parse_name (str "x") = .ok (str "x") ∧ str "x" ≠ [] ∧
    parse_line (str "drwxr-xr-x 4 u u 4096 Jan 1 12:02 zeta/") =
      parse_lineND (str "drwxr-xr-x 4 u u 4096 Jan 1 12:02 zeta/") :=
  ⟨by decide,
   C9_decoder_nonempty_defensive_unreachable.1 (str "x") (str "x") (by decide),
   C9_decoder_nonempty_defensive_unreachable.2
     (str "drwxr-xr-x 4 u u 4096 Jan 1 12:02 zeta/")⟩

/-- C10: on a non-skipped line whose rejoined name needs no quote
processing (the decoder returns it verbatim), has no trailing slash and
is not "." or "..", the resulting file entry's name is exactly the
remaining tokens rejoined with single spaces; in particular an interior
" -> " is kept and never stripped. -/
theorem C10_arrow_name_verbatim (line fm t1 t2 t3 sz t4 t5 t6 : List Char)
    (nameToks : List (List Char)) (n : Int)
    (hsplit : splitWS line = fm :: t1 :: t2 :: t3 :: sz :: t4 :: t5 :: t6 :: nameToks)
    (hne : ¬(line = [] ∨ startsWith (str "total ") line = true))
    (hskip : ¬ skipMode fm)
    (hsz : parseI64 sz = some n)
    (hslash : (joinSpace nameToks).getLast? ≠ some '/')
    (hverb : parse_name (joinSpace nameToks) = .ok (joinSpace nameToks))
    (hdot : ¬(joinSpace nameToks = str "." ∨ joinSpace nameToks = str "..")) :
    parse_line line = .ok (some (.File ⟨joinSpace nameToks, n⟩)) := by
  rw [parse_line_eval line fm t1 t2 t3 sz t4 t5 t6 nameToks hsplit hne hskip, hsz]
  dsimp only
  rw [if_neg (parse_name_ok_ne_nil _ _ hverb), if_neg hslash, hverb]
  dsimp only
  rw [if_neg hdot, if_neg hslash]

theorem C10_arrow_name_verbatim_witness :
    parse_line (str "-rw-r--r-- 1 root root 16 Jan 1 00:01 arrow -> name") =
      .ok (some (.File ⟨str "arrow -> name", 16⟩)) := by
  have h := C10_arrow_name_verbatim
    (str "-rw-r--r-- 1 root root 16 Jan 1 00:01 arrow -> name")
    (str "-rw-r--r--") (str "1") (str "root") (str "root") (str "16") (str "Jan")
    (str "1") (str "00:01") [str "arrow", str "->", str "name"] 16
    (by decide) (by decide) (by decide) (by decide) (by decide) (by decide) (by decide)
  rwa [show joinSpace [str "arrow", str "->", str "name"] = str "arrow -> name"
        from by decide] at h
